import Mathlib

/-!
Verification of the crawl-and-transform core of `context_wiki_mirror.py`
(a MediaWiki → static-site mirroring script).

The script's pure string/path algorithms are embedded over `List Char`
(strings) and `List (List Char)` (the tail components of an absolute POSIX
path).  Library calls that the script relies on (`urllib.parse.unquote`,
`re.sub` with the two concrete patterns it uses, `pathlib.PurePosixPath`
operations) are embedded with their documented semantics at exactly the
call shapes the script uses.  Stateful parts (the exception-suppressing
decorator, the counters, the two-phase task orchestration) are embedded as
explicit state passing and as traces of table events over the two
sequential task groups.
-/

/-! ## String primitives -/

/-- The value of a hexadecimal digit, `none` for other characters
(the digits accepted by `%xx` escapes in `urllib.parse.unquote`). -/
def hexDigit? (c : Char) : Option Nat :=
  if '0' ≤ c ∧ c ≤ '9' then some (c.toNat - '0'.toNat)
  else if 'a' ≤ c ∧ c ≤ 'f' then some (c.toNat - 'a'.toNat + 10)
  else if 'A' ≤ c ∧ c ≤ 'F' then some (c.toNat - 'A'.toNat + 10)
  else none

/-- The scan of `url_decode` below.  `fuel` only bounds the recursion
depth; every step consumes at least one input character, so `l.length`
fuel always suffices and the `0` case is never reached from `url_decode`. -/
def url_decode_go : Nat → List Char → List Char
  | 0, l => l
  | _ + 1, [] => []
  | fuel + 1, c :: rest =>
    if c = '%' then
      match rest with
      | a :: b :: rest2 =>
        match hexDigit? a, hexDigit? b with
        | some ha, some hb => Char.ofNat (16 * ha + hb) :: url_decode_go fuel rest2
        | _, _ => '%' :: url_decode_go fuel rest
      | _ => '%' :: url_decode_go fuel rest
    else c :: url_decode_go fuel rest

/-- Modelled from the spec: `normalizeTitle` "percent-decodes"; the source
calls `urllib.parse.unquote`, which is library code outside the repository.
A `%` followed by two hexadecimal digits decodes to the character of that
byte value; any other `%` is kept literally and scanning continues after it.
(Multi-byte UTF-8 escape sequences are outside the claims; each decoded byte
stands for its own code point.) -/
def url_decode (l : List Char) : List Char := url_decode_go l.length l

/-- `str.replace(" ", "_")` character map. -/
def space_to_underscore (c : Char) : Char := if c = ' ' then '_' else c

/-- `normalize_file_name` (source lines 356-358):
`url_decode(name).replace(" ", "_")`. -/
def normalize_file_name (s : List Char) : List Char :=
  (url_decode s).map space_to_underscore

/-- `str.removeprefix`: drop `pre` from the front of `l` when `l` starts
with it, otherwise return `l` unchanged. -/
def removePrefixCl (pre l : List Char) : List Char :=
  if pre.isPrefixOf l then l.drop pre.length else l

/-- `WIKI_URL` (source line 102). -/
def WIKI_URL : String := "https://wiki.contextgarden.net/"

/-! ## POSIX path model

An absolute `pathlib.PurePosixPath` is represented by the list of its
components after the root; constructing `Path("/" + s)` splits on `/`,
dropping empty and `"."` components (as `pathlib` does) and keeping
`".."` components literally (as `pathlib` does). -/

/-- Split a character list at every `'/'`. -/
def splitSlash : List Char → List (List Char)
  | [] => [[]]
  | c :: rest =>
    if c = '/' then [] :: splitSlash rest
    else
      match splitSlash rest with
      | s :: ss => (c :: s) :: ss
      | [] => [[c]]

/-- The components of `Path("/" + u)`. -/
def abs_parts (u : List Char) : List (List Char) :=
  (splitSlash u).filter (fun p => p ≠ [] ∧ p ≠ ['.'])

/-- Split a path component into `(stem, suffix)` following
`PurePosixPath.suffix`: the suffix starts at the last dot provided that dot
is neither the first nor the last character; otherwise the suffix is empty.
Always `stem ++ suffix = name`. -/
def suffix_split (name : List Char) : List Char × List Char :=
  match name.reverse.dropWhile (fun c => c ≠ '.') with
  | '.' :: revStem =>
    if revStem ≠ [] ∧ name.reverse.takeWhile (fun c => c ≠ '.') ≠ [] then
      (revStem.reverse, '.' :: (name.reverse.takeWhile (fun c => c ≠ '.')).reverse)
    else (name, [])
  | _ => (name, [])

/-- `PurePosixPath.suffix` of a component. -/
def name_suffix (name : List Char) : List Char := (suffix_split name).2

/-- The characters of `".html"`. -/
def htmlExt : List Char := ['.', 'h', 't', 'm', 'l']

/-- `path.with_suffix(".html")`: replace (or append, when there is none)
the suffix of the final component.  `pathlib` raises on an empty name; the
modelled call sites never reach that case, here it returns `[]`. -/
def with_suffix_html (p : List (List Char)) : List (List Char) :=
  match p.getLast? with
  | none => []
  | some name => p.dropLast ++ [(suffix_split name).1 ++ htmlExt]

/-! ## `make_url_relative` (source lines 420-436) -/

/-- The component `".."`. -/
def dotdot : List Char := ['.', '.']

/-- The characters of `"../"`. -/
def dotdotSlash : List Char := ['.', '.', '/']

/-- The walk-up loop of `PurePosixPath.relative_to(other, walk_up=True)`,
over the reversed component list of `other`: try `other` itself, then each
of its parents; the first one that is a prefix of `self` contributes the
remaining components of `self`, and each level walked up prepends a `".."`
component.  A `".."` component at the end of a candidate makes
`relative_to` raise (`none`). -/
def relWalkRev (self : List (List Char)) : List (List Char) → Option (List (List Char))
  | [] => some self
  | seg :: revRest =>
    if ((seg :: revRest).reverse).isPrefixOf self then
      some (self.drop (revRest.length + 1))
    else if seg = dotdot then none
    else (relWalkRev self revRest).map (fun r => dotdot :: r)

/-- `self.relative_to(other, walk_up=True)` for absolute paths. -/
def relative_to_walk_up (self other : List (List Char)) : Option (List (List Char)) :=
  relWalkRev self other.reverse

/-- `str()` of a relative path given by its components (the empty component
list renders as `"."`, as `pathlib` does). -/
def render_rel : List (List Char) → List Char
  | [] => ['.']
  | [s] => s
  | s :: rest => s ++ '/' :: render_rel rest

/-- The tail of `make_url_relative` (source lines 434-436):
`str(this_path.relative_to(base_path, walk_up=True)).removeprefix("../")`. -/
def relativize (target base : List (List Char)) : Option (List Char) :=
  (relative_to_walk_up target base).map (fun r => removePrefixCl dotdotSlash (render_rel r))

/-- Claim-side definition, following the words of claim C3: the target's
path computed relative to the directory *containing* the base path (its
parent), allowing ascent, with one leading `"../"` then stripped from the
result. -/
def relativize_claim (target base : List (List Char)) : Option (List Char) :=
  (relative_to_walk_up target base.dropLast).map
    (fun r => removePrefixCl dotdotSlash (render_rel r))

/-- Lookup in the redirect table (a Python `dict` keyed by normalized
titles). -/
def dict_get : List (List Char × List Char) → List Char → Option (List Char)
  | [], _ => none
  | (k, v) :: rest, u => if u = k then some v else dict_get rest u

/-- The head of `make_url_relative` (source lines 423-427): strip the wiki
base prefix, normalize, strip one leading slash, then a one-level redirect
lookup (a title absent from the table is kept). -/
def resolve_title (table : List (List Char × List Char)) (this_url : List Char) : List Char :=
  let u := removePrefixCl ['/'] (normalize_file_name (removePrefixCl WIKI_URL.toList this_url))
  match dict_get table u with
  | some v => v
  | none => u

/-- The middle of `make_url_relative` (source lines 429-433): wrap the
title in a leading slash, map the bare root to `/index`, and append
`.html` when the path has no suffix. -/
def to_normalized_path (u : List Char) : List (List Char) :=
  let p := abs_parts u
  let p := if p = [] then [['i', 'n', 'd', 'e', 'x']] else p
  if name_suffix (p.getLastD []) = [] then with_suffix_html p else p

/-- `make_url_relative` (source lines 420-436), with the global redirect
table passed explicitly. -/
def make_url_relative (table : List (List Char × List Char))
    (this_url : List Char) (base_path : List (List Char)) : Option (List Char) :=
  relativize (to_normalized_path (resolve_title table this_url)) base_path

/-! ## `normalize_image_url` (source lines 410-417) -/

/-- One attempted match of `(?<=/)([^/]+)/\d+px-\1` at the current
position (the `(?<=/)` lookbehind is checked by the caller).  The regex is
deterministic here: `[^/]+` cannot cross a `/` yet must be followed by one,
so it is exactly the run up to the next `/`; `\d+` must be followed by the
literal `p`, so it is exactly the maximal digit run.  On success, returns
the matched group (the replacement) and the rest of the input after the
match. -/
def thumb_attempt (l : List Char) : Option (List Char × List Char) :=
  let sp := l.span (fun c => c ≠ '/')
  match sp.1, sp.2 with
  | [], _ => none
  | g, '/' :: rest2 =>
    let dsp := rest2.span Char.isDigit
    match dsp.1, dsp.2 with
    | [], _ => none
    | _, 'p' :: 'x' :: '-' :: rest4 =>
      if g.isPrefixOf rest4 then some (g, rest4.drop g.length) else none
    | _, _ => none
  | _, _ => none

/-- The left-to-right scan of `re.sub(r"(?<=/)([^/]+)/\d+px-\1", r"\1", ·)`:
at each position whose preceding original character is `/`, attempt a
match; on success emit the group and resume after the match, otherwise
emit one character.  `fuel` bounds the recursion; every step consumes at
least one input character, so `l.length` fuel always suffices. -/
def strip_thumb_go : Nat → Bool → List Char → List Char
  | 0, _, l => l
  | _ + 1, _, [] => []
  | fuel + 1, prevSlash, c :: rest =>
    if prevSlash then
      match thumb_attempt (c :: rest) with
      | some (g, remaining) => g ++ strip_thumb_go fuel false remaining
      | none => c :: strip_thumb_go fuel (c = '/') rest
    else c :: strip_thumb_go fuel (c = '/') rest

/-- `re.sub(r"(?<=/)([^/]+)/\d+px-\1", r"\1", l)` (the matched group never
contains `/`, so after a replacement the preceding character is never
`/`). -/
def strip_thumb (l : List Char) : List Char :=
  strip_thumb_go l.length false l

/-- `re.sub(r"\.[^.]{3,4}$", ".webp", l)`: when the text after the last
dot has 3 or 4 characters (and the string contains a dot), replace from
that dot to the end with `".webp"`; otherwise leave the string alone. -/
def replace_ext (l : List Char) : List Char :=
  let sp := l.reverse.span (fun c => c ≠ '.')
  match sp.2 with
  | '.' :: revPre =>
    if sp.1.length = 3 ∨ sp.1.length = 4 then
      revPre.reverse ++ ['.', 'w', 'e', 'b', 'p']
    else l
  | _ => l

/-- The characters of `".ico"`. -/
def icoExt : List Char := ['.', 'i', 'c', 'o']

/-- `normalize_image_url` (source lines 410-417): normalize the file name,
strip the thumbnail-scaling infix, then replace the extension with `.webp`
unless the result ends in `.ico`. -/
def normalize_image_url (url : List Char) : List Char :=
  let u := strip_thumb (normalize_file_name url)
  if icoExt.isSuffixOf u then u else replace_ext u

/-! ## Page output path versus link target path (claim C10) -/

/-- The output path `process_page` derives for a page title (source lines
504-508): `(Path("/") / normalize_file_name(title.removeprefix(WIKI_URL)))
.with_suffix(".html")`, as components. -/
def page_output_path (title : List Char) : List (List Char) :=
  with_suffix_html (abs_parts (normalize_file_name (removePrefixCl WIKI_URL.toList title)))

/-- The normalized absolute path `make_url_relative` computes (before
relativization) for a site-root-relative link `"/" + title` to the same
title, with an empty redirect table. -/
def link_normalized_path (title : List Char) : List (List Char) :=
  to_normalized_path (resolve_title [] ('/' :: title))

/-! ## Counters and exception containment (source lines 273-286, 489-611) -/

/-- The two process-wide counters (source lines 254, 260). -/
structure Counters where
  processed_pages_count : Nat
  suppressed_exceptions_count : Nat
deriving DecidableEq

/-- `async_without_exceptions` (source lines 273-286): run the body; when
it raises, increment `suppressed_exceptions_count` by one instead of
propagating. -/
def async_without_exceptions (body : Counters → Except Unit Counters) (c : Counters) : Counters :=
  match body c with
  | .ok c2 => c2
  | .error _ =>
    { c with suppressed_exceptions_count := c.suppressed_exceptions_count + 1 }

/-- The effect of the body of `process_page` (source lines 489-611) on the
counters: its only counter mutation is the final
`processed_pages_count += 1`, so an exception raised at any earlier point
leaves both counters untouched. -/
def process_page_body (raises : Bool) (c : Counters) : Except Unit Counters :=
  if raises then .error ()
  else .ok { c with processed_pages_count := c.processed_pages_count + 1 }

/-- A page-render task as spawned by the orchestrator: the body wrapped by
`async_without_exceptions` (source line 488). -/
def process_page_task (raises : Bool) : Counters → Counters :=
  async_without_exceptions (process_page_body raises)

/-- A batch of page-render tasks (cooperative single-threaded scheduling:
each counter update runs without preemption). -/
def run_page_tasks (outcomes : List Bool) (c : Counters) : Counters :=
  outcomes.foldl (fun acc r => process_page_task r acc) c

/-! ## Run outcome and exit codes (source lines 96-98, 731-749) -/

/-- `MIN_PAGES_FOR_SUCCESS` (source line 95). -/
def MIN_PAGES_FOR_SUCCESS : Nat := 1000

/-- `MAX_EXCEPTIONS_FOR_SUCCESS` (source line 92). -/
def MAX_EXCEPTIONS_FOR_SUCCESS : Nat := 100

/-- `STATUS_OK` (source line 98). -/
def STATUS_OK : Nat := 0

/-- `STATUS_ERROR` (source line 97). -/
def STATUS_ERROR : Nat := 1

/-- The success test of `main` (source lines 743-746). -/
def run_success (processed suppressed : Nat) : Bool :=
  decide (MIN_PAGES_FOR_SUCCESS < processed) && decide (suppressed ≤ MAX_EXCEPTIONS_FOR_SUCCESS)

/-- How a run of `async_main` ends, as seen by `main`: normal completion
with the two final counters, or an external interrupt
(`KeyboardInterrupt` / `CancelledError`). -/
inductive RunOutcome
  | completed (processed suppressed : Nat)
  | cancelled
deriving DecidableEq

/-- The exit status `main` terminates with (source lines 731-749):
cancellation exits `STATUS_ERROR`; completion exits `STATUS_OK` exactly
when the thresholds are met, `STATUS_ERROR` otherwise. -/
def main_exit : RunOutcome → Nat
  | .cancelled => STATUS_ERROR
  | .completed p s => if run_success p s then STATUS_OK else STATUS_ERROR

/-! ## Heading normalization (source lines 549-565) -/

/-- A node of the parsed document, as far as the heading rule observes it:
its tag name and its `id` attribute. -/
structure Elem where
  tag : String
  id : Option String
deriving DecidableEq

/-- `MAX_HTML_HEADER_LEVEL` (source line 93). -/
def MAX_HTML_HEADER_LEVEL : Nat := 6

/-- The level of a heading tag (`find_all(name=re.compile("h[1-6]"))`
selects exactly the tags `h1` … `h6`). -/
def headingLevel? (tag : String) : Option Nat :=
  if tag = "h1" then some 1
  else if tag = "h2" then some 2
  else if tag = "h3" then some 3
  else if tag = "h4" then some 4
  else if tag = "h5" then some 5
  else if tag = "h6" then some 6
  else none

/-- The heading tag of a given level. -/
def hTag (n : Nat) : String := "h" ++ toString n

/-- The per-header body of the lowering loop (source lines 559-565):
headers carrying `id="page-title"` are skipped, levels below the maximum
are increased by one, `h6` is left alone; non-heading nodes are not
selected by the loop. -/
def bump (e : Elem) : Elem :=
  match headingLevel? e.tag with
  | none => e
  | some lvl =>
    if e.id = some "page-title" then e
    else if lvl < MAX_HTML_HEADER_LEVEL then { e with tag := hTag (lvl + 1) } else e

/-- Remove the first `h1` node of the document. -/
def removeFirstH1 : List Elem → List Elem
  | [] => []
  | e :: rest => if e.tag = "h1" then rest else e :: removeFirstH1 rest

/-- Remove the second `h1` node of the document
(`h1s[1].decompose()`, source line 556). -/
def removeSecondH1 : List Elem → List Elem
  | [] => []
  | e :: rest => if e.tag = "h1" then e :: removeFirstH1 rest else e :: removeSecondH1 rest

/-- `len(parsed.find_all(name="h1"))`. -/
def count_h1 (d : List Elem) : Nat := (d.filter (fun e => e.tag = "h1")).length

/-- The heading-normalization step of `process_page` (source lines
549-565), over the document's nodes. -/
def fix_headers (d : List Elem) : List Elem :=
  if count_h1 d = 1 then d
  else if count_h1 d = 2 then removeSecondH1 d
  else d.map bump

/-! ## Two-phase orchestration (source lines 374-396, 642-670) -/

/-- An access to the global redirect table. -/
inductive TableEvent
  | write (src dst : List Char)
  | read (url : List Char)
deriving DecidableEq

/-- Whether an event mutates the table. -/
def TableEvent.isWrite : TableEvent → Bool
  | .write _ _ => true
  | .read _ => false

/-- The table events of one `get_redirects` task (source lines 374-396):
one `redirects[normalize_file_name(title)] = normalize_file_name(link)`
write per outbound link of the redirect page. -/
def get_redirects_events (title : List Char) (links : List (List Char)) : List TableEvent :=
  links.map (fun l => TableEvent.write (normalize_file_name title) (normalize_file_name l))

/-- The table events of one `process_page` task: it touches the table only
through the `make_url_relative` lookups it performs (style, favicon, home,
and every rewritten link), all reads. -/
def process_page_events (urls : List (List Char)) : List TableEvent :=
  urls.map TableEvent.read

/-- `write_style` performs no table access. -/
def write_style_events : List TableEvent := []

/-- `download_image` performs no table access. -/
def download_image_events : List TableEvent := []

/-- The tasks of the first task group of `async_main` (source lines
643-657): the style task, the favicon download, and one `get_redirects`
task per redirect page (given with its outbound link titles). -/
def phaseA_tasks (pages : List (List Char × List (List Char))) : List (List TableEvent) :=
  write_style_events :: download_image_events ::
    pages.map (fun p => get_redirects_events p.1 p.2)

/-- The tasks of the second task group of `async_main` (source lines
660-670): one `process_page` task per content page (given by the URLs it
relativizes). -/
def phaseB_tasks (pages : List (List (List Char))) : List (List TableEvent) :=
  pages.map process_page_events

/-- Run a group of cooperative tasks under a schedule: each schedule entry
picks the task that emits its next event; when the schedule ends, the
`async with TaskGroup()` barrier drains every remaining task before the
group exits, so all outstanding events are appended. -/
def runSched : List (List TableEvent) → List Nat → List TableEvent
  | ts, [] => ts.flatten
  | ts, i :: rest =>
    match ts[i]? with
    | some (e :: q) => e :: runSched (ts.set i q) rest
    | _ => runSched ts rest

/-- The table-event trace of one run of `async_main` (source lines
642-670): the first task group runs to completion — under any schedule —
before the second starts; the two groups are composed sequentially. -/
def async_main_trace (pa : List (List Char × List (List Char)))
    (pb : List (List (List Char))) (s1 s2 : List Nat) : List TableEvent :=
  runSched (phaseA_tasks pa) s1 ++ runSched (phaseB_tasks pb) s2

/-! ## Helper lemmas -/

/-- `count_h1` over a cons. -/
theorem count_h1_cons (e : Elem) (l : List Elem) :
    count_h1 (e :: l) = (if e.tag = "h1" then 1 else 0) + count_h1 l := by
  by_cases h : e.tag = "h1"
  · simp [count_h1, List.filter_cons, h]
    omega
  · simp [count_h1, List.filter_cons, h]

/-- Removing the first `h1` lowers the `h1` count by one. -/
theorem count_h1_removeFirstH1 (l : List Elem) :
    count_h1 (removeFirstH1 l) = count_h1 l - 1 := by
  induction l with
  | nil => rfl
  | cons e rest ih =>
    by_cases h : e.tag = "h1"
    · simp [removeFirstH1, h, count_h1_cons]
    · simp [removeFirstH1, h, count_h1_cons, ih]

/-- With exactly two `h1` nodes, removing the second leaves exactly one. -/
theorem count_h1_removeSecondH1 (l : List Elem) (h2 : count_h1 l = 2) :
    count_h1 (removeSecondH1 l) = 1 := by
  induction l with
  | nil => simp [count_h1] at h2
  | cons e rest ih =>
    rw [count_h1_cons] at h2
    by_cases h : e.tag = "h1"
    · rw [if_pos h] at h2
      simp [removeSecondH1, h, count_h1_cons, count_h1_removeFirstH1]
      omega
    · rw [if_neg h] at h2
      simp only [Nat.zero_add] at h2
      simp [removeSecondH1, h, count_h1_cons, ih h2]

/-- A percent-free string decodes to itself (no escape can start). -/
theorem url_decode_go_no_percent (fuel : Nat) (l : List Char) (h : '%' ∉ l) :
    url_decode_go fuel l = l := by
  induction fuel generalizing l with
  | zero => rfl
  | succ fuel ih =>
    cases l with
    | nil => rfl
    | cons c rest =>
      have hc : c ≠ '%' := fun e => h (e ▸ List.mem_cons_self c rest)
      have hr : '%' ∉ rest := fun m => h (List.mem_cons_of_mem c m)
      simp [url_decode_go, hc, ih rest hr]

/-- A percent-free string decodes to itself. -/
theorem url_decode_no_percent (l : List Char) (h : '%' ∉ l) : url_decode l = l :=
  url_decode_go_no_percent l.length l h

/-- The space-to-underscore map is idempotent on characters. -/
theorem space_to_underscore_idem (c : Char) :
    space_to_underscore (space_to_underscore c) = space_to_underscore c := by
  by_cases h : c = ' '
  · subst h; decide
  · simp [space_to_underscore, h]

/-- The space-to-underscore map is idempotent on strings. -/
theorem map_space_to_underscore_idem (l : List Char) :
    (l.map space_to_underscore).map space_to_underscore = l.map space_to_underscore := by
  induction l with
  | nil => rfl
  | cons c rest ih => simp [space_to_underscore_idem c, ih]

/-- One decode step past a character other than `%`. -/
theorem url_decode_cons (c : Char) (t : List Char) (hc : c ≠ '%') :
    url_decode (c :: t) = c :: url_decode t := by
  simp [url_decode, url_decode_go, hc]

/-! ## Claims -/

/-- C1 (counterexample): the spec's first example equation for
`normalizeImageUrl` fails on the code: the thumbnail infix
`<digits>px-<stem>` is only stripped when the stem is preceded by a `/`
(the regex has a `(?<=/)` lookbehind), so `"Foo/80px-Foo.png"` — whose
first stem occurrence starts the string — is not stripped, and
`normalize_image_url` returns `"Foo/80px-Foo.webp"`, not `"Foo.webp"`. -/
theorem normalize_image_url_example_refuted :
    normalize_image_url "Foo/80px-Foo.png".toList = "Foo/80px-Foo.webp".toList
  ∧ normalize_image_url "Foo/80px-Foo.png".toList ≠ "Foo.webp".toList := by
  exact ⟨by decide, by decide⟩

/-- C1 (amended): `normalize_image_url("Foo/80px-Foo.png")` returns
`"Foo/80px-Foo.webp"` (the infix strip needs a preceding `/`; with one,
`normalize_image_url("/Foo/80px-Foo.png")` returns `"/Foo.webp"`), and
`normalize_image_url("icon.ico")` returns `"icon.ico"` unchanged. -/
theorem normalize_image_url_examples :
    normalize_image_url "Foo/80px-Foo.png".toList = "Foo/80px-Foo.webp".toList
  ∧ normalize_image_url "/Foo/80px-Foo.png".toList = "/Foo.webp".toList
  ∧ normalize_image_url "icon.ico".toList = "icon.ico".toList := by
  exact ⟨by decide, by decide, by decide⟩

/-- C4: the run verdict is success exactly when
`processed_pages_count > 1000` and `suppressed_exceptions_count ≤ 100`;
in particular `(1001, 100)` exits `STATUS_OK` while `(1001, 101)` and
`(999, 0)` exit `STATUS_ERROR`, the verdict depending only on the two
counters. -/
theorem run_success_iff_thresholds :
    (∀ p s : Nat, run_success p s = true ↔
      MIN_PAGES_FOR_SUCCESS < p ∧ s ≤ MAX_EXCEPTIONS_FOR_SUCCESS)
  ∧ main_exit (RunOutcome.completed 1001 100) = STATUS_OK
  ∧ main_exit (RunOutcome.completed 1001 101) = STATUS_ERROR
  ∧ main_exit (RunOutcome.completed 999 0) = STATUS_ERROR := by
  refine ⟨fun p s => ?_, by decide, by decide, by decide⟩
  simp [run_success]

/-- C7: a page-render task that raises adds exactly one to
`suppressed_exceptions_count` and leaves `processed_pages_count`
unchanged; one that completes adds exactly one to
`processed_pages_count`; over any batch of sibling tasks the counters
accumulate independently, one unit per task. -/
theorem process_page_exception_containment :
    (∀ c : Counters, process_page_task true c =
      { c with suppressed_exceptions_count := c.suppressed_exceptions_count + 1 })
  ∧ (∀ c : Counters, process_page_task false c =
      { c with processed_pages_count := c.processed_pages_count + 1 })
  ∧ (∀ (outcomes : List Bool) (c : Counters),
      run_page_tasks outcomes c =
        ⟨c.processed_pages_count + outcomes.count false,
         c.suppressed_exceptions_count + outcomes.count true⟩) := by
  refine ⟨fun c => rfl, fun c => rfl, fun outcomes => ?_⟩
  induction outcomes with
  | nil => intro c; simp [run_page_tasks]
  | cons b rest ih =>
    intro c
    have hstep : run_page_tasks (b :: rest) c = run_page_tasks rest (process_page_task b c) := rfl
    cases b with
    | true =>
      rw [hstep, ih]
      simp [process_page_task, async_without_exceptions, process_page_body, List.count_cons]
      omega
    | false =>
      rw [hstep, ih]
      simp [process_page_task, async_without_exceptions, process_page_body, List.count_cons]
      omega

/-- C8 (counterexample): the three run outcomes do not get pairwise
distinct exit codes: an external cancellation and a threshold failure
(here 999 pages, 0 exceptions) both exit with `STATUS_ERROR = 1`. -/
theorem exit_code_collision :
    main_exit RunOutcome.cancelled = STATUS_ERROR
  ∧ main_exit (RunOutcome.completed 999 0) = STATUS_ERROR
  ∧ main_exit RunOutcome.cancelled = main_exit (RunOutcome.completed 999 0) := by
  exact ⟨by decide, by decide, by decide⟩

/-- C8 (amended): the process terminates with two distinct exit codes:
`STATUS_OK = 0` for success and `STATUS_ERROR = 1` for both generic
failure and external cancellation (cancellation is distinguished by the
"Operation cancelled." message, not by its exit code). -/
theorem exit_codes_two_values :
    main_exit (RunOutcome.completed 1001 0) = STATUS_OK
  ∧ main_exit (RunOutcome.completed 999 0) = STATUS_ERROR
  ∧ main_exit RunOutcome.cancelled = STATUS_ERROR
  ∧ STATUS_OK ≠ STATUS_ERROR := by
  exact ⟨by decide, by decide, by decide, by decide⟩

/-- C5: heading normalization: a document with exactly one `h1` is
unchanged; with exactly two, the second is deleted leaving exactly one;
otherwise every `h1`-`h6` heading without `id="page-title"` has its level
increased by one, capped at `h6`; a document of three `h1`s and one `h2`
(none `page-title`) yields three `h2`s and one `h3`. -/
theorem fix_headers_heading_rule :
    (∀ d : List Elem, count_h1 d = 1 → fix_headers d = d)
  ∧ (∀ d : List Elem, count_h1 d = 2 →
      fix_headers d = removeSecondH1 d ∧ count_h1 (fix_headers d) = 1)
  ∧ (∀ d : List Elem, count_h1 d ≠ 1 → count_h1 d ≠ 2 → fix_headers d = d.map bump)
  ∧ bump ⟨"h6", none⟩ = ⟨"h6", none⟩
  ∧ bump ⟨"h2", some "page-title"⟩ = ⟨"h2", some "page-title"⟩
  ∧ fix_headers [⟨"h1", none⟩, ⟨"h1", none⟩, ⟨"h1", none⟩, ⟨"h2", none⟩]
      = [⟨"h2", none⟩, ⟨"h2", none⟩, ⟨"h2", none⟩, ⟨"h3", none⟩]
  ∧ count_h1 (fix_headers [⟨"h1", none⟩, ⟨"p", none⟩, ⟨"h1", none⟩]) = 1 := by
  refine ⟨fun d h1 => ?_, fun d h2 => ?_, fun d h1 h2 => ?_,
    by decide, by decide, by decide, by decide⟩
  · simp [fix_headers, h1]
  · constructor
    · simp [fix_headers, h2]
    · rw [show fix_headers d = removeSecondH1 d by simp [fix_headers, h2]]
      exact count_h1_removeSecondH1 d h2
  · simp [fix_headers, h1, h2]

/-- C2 (counterexample): `normalize_file_name` is not idempotent: decoding
`"%2520"` yields `"%20"`, which a second application decodes to a space and
then maps to `"_"`. -/
theorem normalize_file_name_not_idempotent :
    normalize_file_name "%2520".toList = "%20".toList
  ∧ normalize_file_name (normalize_file_name "%2520".toList) = "_".toList
  ∧ normalize_file_name (normalize_file_name "%2520".toList)
      ≠ normalize_file_name "%2520".toList := by
  exact ⟨by decide, by decide, by decide⟩

/-- C2 (amended): `normalize_file_name` is idempotent on every string whose
normalized form contains no `%` character; full idempotence fails because
percent-decoding can itself produce a new escape sequence. -/
theorem normalize_file_name_idempotent_no_percent :
    ∀ l : List Char, '%' ∉ normalize_file_name l →
      normalize_file_name (normalize_file_name l) = normalize_file_name l := by
  intro l h
  simp only [normalize_file_name] at h ⊢
  rw [url_decode_no_percent _ h, map_space_to_underscore_idem]

/-- Witness for C2 (amended) at the concrete input `"Foo Bar"`. -/
theorem normalize_file_name_idempotent_witness :
    normalize_file_name (normalize_file_name "Foo Bar".toList)
      = normalize_file_name "Foo Bar".toList :=
  normalize_file_name_idempotent_no_percent "Foo Bar".toList (by decide)

/-- C6: redirect resolution in `make_url_relative` is a one-level lookup
after stripping the wiki base prefix and normalizing: with table
`{"Old": "New"}`, a URL naming `Old` relativizes exactly like the same URL
naming `New`, for every base path; the lookup is not chased transitively
(`Old` resolves to `New` even when `New` is itself a key), and a title
absent from the table resolves to itself. -/
theorem make_url_relative_redirect_resolution :
    (∀ bp : List (List Char),
      make_url_relative [("Old".toList, "New".toList)] (WIKI_URL ++ "Old").toList bp
        = make_url_relative [("Old".toList, "New".toList)] (WIKI_URL ++ "New").toList bp)
  ∧ resolve_title [("Old".toList, "New".toList), ("New".toList, "Newer".toList)]
      (WIKI_URL ++ "Old").toList = "New".toList
  ∧ resolve_title [("Old".toList, "New".toList)] (WIKI_URL ++ "Absent").toList
      = "Absent".toList := by
  refine ⟨fun bp => ?_, by decide, by decide⟩
  have h : resolve_title [("Old".toList, "New".toList)] (WIKI_URL ++ "Old").toList
      = resolve_title [("Old".toList, "New".toList)] (WIKI_URL ++ "New").toList := by decide
  simp only [make_url_relative]
  rw [h]

/-- The stem and the suffix of a component concatenate back to it. -/
theorem suffix_split_append (name : List Char) :
    (suffix_split name).1 ++ (suffix_split name).2 = name := by
  have hAB : name.reverse.takeWhile (fun c => c ≠ '.')
      ++ name.reverse.dropWhile (fun c => c ≠ '.') = name.reverse :=
    List.takeWhile_append_dropWhile _ _
  unfold suffix_split
  split
  · next revStem hx =>
    split
    · rw [hx] at hAB
      conv_rhs => rw [← List.reverse_reverse name, ← hAB]
      rw [List.reverse_append, List.reverse_cons, List.append_assoc]
      simp
    · simp
  · simp

/-- `with_suffix_html` fixes a nonempty path exactly when the suffix of its
final component is already `".html"`. -/
theorem with_suffix_html_eq_self (p : List (List Char)) (hp : p ≠ []) :
    with_suffix_html p = p ↔ name_suffix (p.getLastD []) = htmlExt := by
  rcases List.eq_nil_or_concat p with rfl | ⟨q, name, rfl⟩
  · exact absurd rfl hp
  · rw [List.concat_eq_append]
    have h1 : (q ++ [name]).getLast? = some name := List.getLast?_concat q
    have h2 : (q ++ [name]).dropLast = q := List.dropLast_concat
    have h3 : (q ++ [name]).getLastD [] = name := List.getLastD_concat _ _ _
    rw [h3]
    simp only [with_suffix_html, h1, h2]
    constructor
    · intro he
      have hsing := List.append_cancel_left he
      have hn : (suffix_split name).1 ++ htmlExt = name := by
        simpa using hsing
      have hss := suffix_split_append name
      exact (List.append_cancel_left (hn.trans hss.symm)).symm
    · intro hs
      have hss := suffix_split_append name
      rw [show (suffix_split name).2 = htmlExt from hs] at hss
      rw [hss]

/-- The wiki base URL is never a prefix of a root-relative link. -/
theorem removePrefixCl_wiki_slash (t : List Char) :
    removePrefixCl WIKI_URL.toList ('/' :: t) = '/' :: t := by
  unfold removePrefixCl
  rw [if_neg]
  intro h
  rw [show WIKI_URL.toList = 'h' :: "ttps://wiki.contextgarden.net/".toList from rfl] at h
  have hf : ('h' == '/') = false := rfl
  simp [List.isPrefixOf, hf] at h

/-- Stripping the single leading slash. -/
theorem removePrefixCl_slash (x : List Char) : removePrefixCl ['/'] ('/' :: x) = x := by
  have h : List.isPrefixOf ['/'] ('/' :: x) = true := by simp [List.isPrefixOf]
  simp [removePrefixCl, h]

/-- Normalization commutes with a leading slash. -/
theorem normalize_file_name_cons_slash (t : List Char) :
    normalize_file_name ('/' :: t) = '/' :: normalize_file_name t := by
  unfold normalize_file_name
  rw [url_decode_cons '/' t (by decide)]
  rw [List.map_cons, show space_to_underscore '/' = '/' from rfl]

/-- With an empty redirect table, the normalized path of a root-relative
link `"/" + title` is the normalized path of the title itself. -/
theorem link_normalized_path_eq (t : List Char) :
    link_normalized_path t = to_normalized_path (normalize_file_name t) := by
  simp only [link_normalized_path, resolve_title]
  rw [removePrefixCl_wiki_slash, normalize_file_name_cons_slash, removePrefixCl_slash]
  simp [dict_get]

/-- For a title the wiki base URL is not a prefix of, the output path is
the `with_suffix` of the normalized title's components. -/
theorem page_output_path_no_prefix (t : List Char)
    (h : WIKI_URL.toList.isPrefixOf t = false) :
    page_output_path t = with_suffix_html (abs_parts (normalize_file_name t)) := by
  have hcond : ¬ (WIKI_URL.toList.isPrefixOf t = true) := by
    rw [h]
    simp
  have hid : removePrefixCl WIKI_URL.toList t = t := by
    unfold removePrefixCl
    rw [if_neg hcond]
  rw [page_output_path, hid]

/-- C10 (amended): the on-disk output path `process_page` derives and the
normalized path `make_url_relative` computes for a link to the same title
agree exactly when the normalized title's final segment has no extension
or its extension is already `.html`; for a final segment with any other
extension they differ — e.g. title `Lua/5.3` is written to `/Lua/5.html`
while links to it resolve to `/Lua/5.3`. -/
theorem page_output_vs_link_path :
    (∀ t : List Char, WIKI_URL.toList.isPrefixOf t = false →
      abs_parts (normalize_file_name t) ≠ [] →
      (page_output_path t = link_normalized_path t ↔
        (name_suffix ((abs_parts (normalize_file_name t)).getLastD []) = []
          ∨ name_suffix ((abs_parts (normalize_file_name t)).getLastD []) = htmlExt)))
  ∧ page_output_path "Lua/5.3".toList = ["Lua".toList, "5.html".toList]
  ∧ link_normalized_path "Lua/5.3".toList = ["Lua".toList, "5.3".toList] := by
  refine ⟨fun t hw hp => ?_, by decide, by decide⟩
  rw [link_normalized_path_eq, page_output_path_no_prefix t hw]
  simp only [to_normalized_path]
  rw [if_neg hp]
  by_cases hs : name_suffix ((abs_parts (normalize_file_name t)).getLastD []) = []
  · rw [if_pos hs]
    exact iff_of_true rfl (Or.inl hs)
  · rw [if_neg hs]
    rw [with_suffix_html_eq_self _ hp]
    exact ⟨fun h2 => Or.inr h2, fun h2 => h2.resolve_left hs⟩

/-- Witness for C10 (amended): a title with no extension agrees. -/
theorem page_output_vs_link_path_witness :
    page_output_path "Foo".toList = link_normalized_path "Foo".toList :=
  (page_output_vs_link_path.1 "Foo".toList (by decide) (by decide)).mpr (Or.inl (by decide))

/-- C10 (counterexample): the claim's "only when the final segment
contains no dot" is refuted by the title `"X.html"`: its final segment
contains a dot, yet the output path and the link path coincide (both
`/X.html`), because `with_suffix(".html")` fixes a name whose extension is
already `.html`. -/
theorem page_output_vs_link_dot_example :
    page_output_path "X.html".toList = link_normalized_path "X.html".toList
  ∧ '.' ∈ "X.html".toList := by
  exact ⟨by decide, by decide⟩

/-- The walk-up result is empty only when the target is a prefix of the
other path. -/
theorem relWalkRev_eq_some_nil (t revO : List (List Char))
    (h : relWalkRev t revO = some []) : t <+: revO.reverse := by
  induction revO with
  | nil =>
    simp [relWalkRev] at h
    rw [h]
    exact List.nil_prefix
  | cons seg revRest ih =>
    simp only [relWalkRev] at h
    by_cases hpre : ((seg :: revRest).reverse).isPrefixOf t
    · rw [if_pos hpre] at h
      have hd : t.drop (revRest.length + 1) = [] := by simpa using h
      have hlen : t.length ≤ revRest.length + 1 := List.drop_eq_nil_iff.mp hd
      have hpre2 : (seg :: revRest).reverse <+: t := List.isPrefixOf_iff_prefix.mp hpre
      have hlenc : ((seg :: revRest).reverse).length = revRest.length + 1 := by simp
      have heq : (seg :: revRest).reverse = t := by
        refine hpre2.eq_of_length ?_
        have := hpre2.length_le
        omega
      rw [heq]
    · rw [if_neg hpre] at h
      by_cases hseg : seg = dotdot
      · rw [if_pos hseg] at h
        exact absurd h (by simp)
      · rw [if_neg hseg] at h
        rcases Option.map_eq_some'.mp h with ⟨r, _, habs⟩
        simp at habs

/-- Stripping `"../"` undoes the rendering of a leading `".."` component
in front of a nonempty remainder. -/
theorem strip_dotdot_render (r : List (List Char)) (hr : r ≠ []) :
    removePrefixCl dotdotSlash (render_rel (dotdot :: r)) = render_rel r := by
  cases r with
  | nil => exact absurd rfl hr
  | cons s rest =>
    show removePrefixCl ['.', '.', '/'] ('.' :: '.' :: '/' :: render_rel (s :: rest))
      = render_rel (s :: rest)
    unfold removePrefixCl
    rw [if_pos]
    · rfl
    · simp [List.isPrefixOf]

/-- C3 (counterexample): the claim's description of `relativize` fails at
target `/A.html`, base `/Sub/X.html`: the code returns `"../A.html"`
(relative to the base path itself, then one `"../"` stripped), while the
claim's rule — relative to the directory `/Sub` containing the base, with
one further `"../"` stripped — yields `"A.html"`. -/
theorem relativize_claim_counterexample :
    relativize ["A.html".toList] ["Sub".toList, "X.html".toList]
      = some "../A.html".toList
  ∧ relativize_claim ["A.html".toList] ["Sub".toList, "X.html".toList]
      = some "A.html".toList
  ∧ relativize ["A.html".toList] ["Sub".toList, "X.html".toList]
      ≠ relativize_claim ["A.html".toList] ["Sub".toList, "X.html".toList] := by
  exact ⟨by decide, by decide, by decide⟩

/-- C3 (amended): `relativize` computes the target's path relative to the
base path itself (treated as a directory, allowing ascent) and then strips
one leading `"../"` segment when present; this stripped segment is exactly
the ascent out of the base path, so whenever the base path is not a prefix
of the target (and the target is not a prefix of the base's directory, and
the base does not end in a `".."` segment) the result equals the target's
path relative to the directory containing the base with nothing further
stripped. -/
theorem relativize_strips_own_ascent :
    ∀ (target base : List (List Char)),
      base.isPrefixOf target = false →
      target.isPrefixOf base.dropLast = false →
      base.getLast? ≠ some dotdot →
      relativize target base = (relative_to_walk_up target base.dropLast).map render_rel := by
  intro target base h1 h2 h3
  cases hb : base.reverse with
  | nil =>
    have hnil : base = [] := List.reverse_eq_nil_iff.mp hb
    rw [hnil] at h1
    simp [List.isPrefixOf] at h1
  | cons seg revRest =>
    have hbase : base = (seg :: revRest).reverse := by rw [← hb, List.reverse_reverse]
    have hdrop : base.dropLast = revRest.reverse := by
      rw [hbase, List.reverse_cons, List.dropLast_concat]
    have hlast : base.getLast? = some seg := by
      rw [hbase, List.reverse_cons]
      exact List.getLast?_concat _
    have hseg : seg ≠ dotdot := fun e => h3 (by rw [hlast, e])
    have hpre : ¬ (((seg :: revRest).reverse).isPrefixOf target = true) := by
      rw [← hbase, h1]
      simp
    have hstep : relative_to_walk_up target base
        = (relWalkRev target revRest).map (fun r => dotdot :: r) := by
      rw [relative_to_walk_up, hb]
      simp only [relWalkRev]
      rw [if_neg hpre, if_neg hseg]
    have hW : relative_to_walk_up target base.dropLast = relWalkRev target revRest := by
      rw [relative_to_walk_up, hdrop, List.reverse_reverse]
    cases hw : relWalkRev target revRest with
    | none => simp [relativize, hstep, hW, hw]
    | some r =>
      have hr : r ≠ [] := by
        intro h0
        rw [h0] at hw
        have hpfx : target <+: base.dropLast :=
          hdrop ▸ relWalkRev_eq_some_nil target revRest hw
        have hcontra : target.isPrefixOf base.dropLast = true :=
          List.isPrefixOf_iff_prefix.mpr hpfx
        rw [h2] at hcontra
        exact absurd hcontra (by simp)
      simp [relativize, hstep, hW, hw, strip_dotdot_render r hr]

/-- Witness for C3 (amended) at target `/A.html`, base `/Sub/X.html`. -/
theorem relativize_strips_own_ascent_witness :
    relativize ["A.html".toList] ["Sub".toList, "X.html".toList]
      = (relative_to_walk_up ["A.html".toList]
          (["Sub".toList, "X.html".toList].dropLast)).map render_rel :=
  relativize_strips_own_ascent ["A.html".toList] ["Sub".toList, "X.html".toList]
    (by decide) (by decide) (by decide)

/-- Taking one queued event out of task `i` only permutes the flattened
event multiset. -/
theorem flatten_set_perm (ts : List (List TableEvent)) (i : Nat) (e : TableEvent)
    (q : List TableEvent) (h : ts[i]? = some (e :: q)) :
    (e :: (ts.set i q).flatten).Perm ts.flatten := by
  induction ts generalizing i with
  | nil => simp at h
  | cons hd tl ih =>
    cases i with
    | zero =>
      have hhd : hd = e :: q := by simpa using h
      rw [hhd]
      simp only [List.set_cons_zero, List.flatten_cons]
      exact List.Perm.refl _
    | succ j =>
      have htl : tl[j]? = some (e :: q) := by simpa using h
      have hperm := ih j htl
      simp only [List.set_cons_succ, List.flatten_cons]
      refine List.Perm.trans ?_ (List.Perm.append_left hd hperm)
      exact List.perm_middle.symm

/-- Under every schedule, a task group emits exactly the events of its
tasks (the barrier drains every task). -/
theorem runSched_perm (s : List Nat) (ts : List (List TableEvent)) :
    (runSched ts s).Perm ts.flatten := by
  induction s generalizing ts with
  | nil => exact List.Perm.refl _
  | cons i rest ih =>
    rw [runSched]
    split
    · next e q heq =>
      exact ((ih (ts.set i q)).cons e).trans (flatten_set_perm ts i e q heq)
    · exact ih ts

/-- Every event of a Phase-A task is a table write. -/
theorem phaseA_events_write (pa : List (List Char × List (List Char)))
    (e : TableEvent) (he : e ∈ (phaseA_tasks pa).flatten) : e.isWrite = true := by
  rw [List.mem_flatten] at he
  obtain ⟨task, htask, hel⟩ := he
  simp only [phaseA_tasks, write_style_events, download_image_events,
    List.mem_cons, List.mem_map] at htask
  rcases htask with rfl | rfl | ⟨p, _, rfl⟩
  · simp at hel
  · simp at hel
  · simp only [get_redirects_events, List.mem_map] at hel
    obtain ⟨l, _, rfl⟩ := hel
    rfl

/-- Every event of a Phase-B task is a table read. -/
theorem phaseB_events_read (pb : List (List (List Char)))
    (e : TableEvent) (he : e ∈ (phaseB_tasks pb).flatten) : e.isWrite = false := by
  rw [List.mem_flatten] at he
  obtain ⟨task, htask, hel⟩ := he
  simp only [phaseB_tasks, List.mem_map] at htask
  obtain ⟨urls, _, rfl⟩ := htask
  simp only [process_page_events, List.mem_map] at hel
  obtain ⟨u, _, rfl⟩ := hel
  rfl

/-- An element taken past the left part of an append lies in the right
part. -/
theorem getElem_append_mem_right (l1 l2 : List TableEvent) (k : Nat)
    (hk : k < (l1 ++ l2).length) (hge : l1.length ≤ k) : (l1 ++ l2)[k] ∈ l2 := by
  rw [List.getElem_append_right hge]
  exact List.getElem_mem _

/-- An element taken within the left part of an append lies in the left
part. -/
theorem getElem_append_mem_left (l1 l2 : List TableEvent) (k : Nat)
    (hk : k < (l1 ++ l2).length) (hlt : k < l1.length) : (l1 ++ l2)[k] ∈ l1 := by
  rw [List.getElem_append_left hlt]
  exact List.getElem_mem _

/-- C9: phase barrier: under every schedule of the two sequential task
groups of `async_main`, the Phase-A segment of the trace consists only of
redirect-table writes and contains every entry recorded by every
`get_redirects` task, the Phase-B segment contains only reads and no
write, and hence every table write occurs strictly before every table
read in the combined trace. -/
theorem phase_barrier :
    ∀ (pa : List (List Char × List (List Char))) (pb : List (List (List Char)))
      (s1 s2 : List Nat),
      (∀ e ∈ runSched (phaseA_tasks pa) s1, e.isWrite = true)
    ∧ (∀ e ∈ runSched (phaseB_tasks pb) s2, e.isWrite = false)
    ∧ (∀ p ∈ pa, ∀ l ∈ p.2,
        TableEvent.write (normalize_file_name p.1) (normalize_file_name l)
          ∈ runSched (phaseA_tasks pa) s1)
    ∧ (∀ (i j : Nat) (hi : i < (async_main_trace pa pb s1 s2).length)
        (hj : j < (async_main_trace pa pb s1 s2).length),
        ((async_main_trace pa pb s1 s2)[i]).isWrite = true →
        ((async_main_trace pa pb s1 s2)[j]).isWrite = false → i < j) := by
  intro pa pb s1 s2
  have hA : ∀ e ∈ runSched (phaseA_tasks pa) s1, e.isWrite = true := fun e he =>
    phaseA_events_write pa e ((runSched_perm s1 (phaseA_tasks pa)).mem_iff.mp he)
  have hB : ∀ e ∈ runSched (phaseB_tasks pb) s2, e.isWrite = false := fun e he =>
    phaseB_events_read pb e ((runSched_perm s2 (phaseB_tasks pb)).mem_iff.mp he)
  refine ⟨hA, hB, fun p hp l hl => ?_, fun i j hi hj hwi hrj => ?_⟩
  · refine (runSched_perm s1 (phaseA_tasks pa)).mem_iff.mpr ?_
    rw [List.mem_flatten]
    refine ⟨get_redirects_events p.1 p.2, ?_, ?_⟩
    · simp only [phaseA_tasks, List.mem_cons, List.mem_map]
      exact Or.inr (Or.inr ⟨p, hp, rfl⟩)
    · simp only [get_redirects_events, List.mem_map]
      exact ⟨l, hl, rfl⟩
  · have hiA : i < (runSched (phaseA_tasks pa) s1).length := by
      by_contra hge
      push_neg at hge
      have hmem : (async_main_trace pa pb s1 s2)[i] ∈ runSched (phaseB_tasks pb) s2 :=
        getElem_append_mem_right (runSched (phaseA_tasks pa) s1)
          (runSched (phaseB_tasks pb) s2) i hi hge
      have := hB _ hmem
      rw [hwi] at this
      exact absurd this (by simp)
    have hjB : (runSched (phaseA_tasks pa) s1).length ≤ j := by
      by_contra hlt
      push_neg at hlt
      have hmem : (async_main_trace pa pb s1 s2)[j] ∈ runSched (phaseA_tasks pa) s1 :=
        getElem_append_mem_left (runSched (phaseA_tasks pa) s1)
          (runSched (phaseB_tasks pb) s2) j hj hlt
      have := hA _ hmem
      rw [hrj] at this
      exact absurd this (by simp)
    omega
